import Mathlib

/-!
Verification of the `numerical_methods` linear-algebra core.

This file gives a shallow embedding of the routines in
`src/numerical_methods/linalg` and proves or refutes the frozen claims
about them.

Modelling conventions (stated once, used throughout):

* Machine doubles are idealised as exact rationals (`ℚ`) for the LU and
  triangular-solve routines, and as real numbers (`ℝ`) for the QR and
  Householder routines (whose arithmetic involves square roots).
* A numpy array is a function out of `Fin`; shape-consistent slice
  assignments are modelled as the corresponding entrywise updates, and
  numpy view aliasing and broadcast failures are modelled where the
  source hits them: `_swaprows` / `_swapcols` duplicate a row / column
  instead of exchanging (`tmp = A[i, :]` is a view), and the two
  shape-mismatched assignments in the elimination body of `lu` raise a
  broadcast `ValueError` (see `luStep`).
* `raise ValueError(msg)` is modelled by `Except.error` carrying a
  constructor of `PyErr` identifying the message string; `luposdef`
  discriminates errors by that identity, as the source compares
  `str(ve)` against `"Invalid pivot value"`.
* The LU engine is embedded on square matrices, matching its docstring
  contract (`the m*m matrix to LU factor`); the `m < n` guard of the
  source can then never fire and is omitted.  Likewise the shape guards
  of `trisolve` are kept via an explicit length check, and the guard of
  `qr` on the signs vector is enforced by typing.
-/

namespace NM

/-- The `ValueError` messages raised during the runs the claims are
about, as an enumeration: `invalidDims` is
`"Invalid matrix dimensions"`, `invalidKey` is `"Invalid pivoting key"`,
`invalidPivot` is `"Invalid pivot value"`, and `broadcast` stands for
the `ValueError`s numpy itself raises on a shape-mismatched assignment
(`could not broadcast input array from shape ... into shape ...`), whose
message differs from all three messages of the source. -/
inductive PyErr where
  | invalidDims
  | invalidKey
  | invalidPivot
  | broadcast
deriving DecidableEq, Repr

/-- The three recognised pivoting modes of `lu` (`"none"`, `"partial"`,
`"full"`); the case-insensitive string validation of the source is not
itself modelled, only the three recognised outcomes. -/
inductive Pivot where
  | none
  | part
  | full
deriving DecidableEq, Repr

/-- Maximum of a list of rationals (`0` on the empty list; only ever used
on nonempty lists). -/
def listMax : List ℚ → ℚ
  | [] => 0
  | x :: xs => max x (listMax xs)

/-- Index of the first occurrence of the maximum of a list, as computed by
`numpy.argmax` (first index wins on ties; `0` on the empty list). -/
def argmaxQ : List ℚ → ℕ
  | [] => 0
  | x :: xs => if listMax xs ≤ x then 0 else argmaxQ xs + 1

/-- `_swaprows A i j`.  The source intends an exchange, but
`tmp = A[i, :]` is a numpy view of row `i`, not a copy: after
`A[i, :] = A[j, :]` the view already holds the values of row `j`, so the
final `A[j, :] = tmp` writes row `j` back onto itself.  The net effect
is that row `i` is overwritten with row `j` and row `j` is unchanged
(and nothing happens when `i = j`, which the formula below also
satisfies). -/
def swaprows {m n : ℕ} (A : Matrix (Fin m) (Fin n) ℚ) (i j : Fin m) :
    Matrix (Fin m) (Fin n) ℚ :=
  Matrix.of fun r c => if r = i then A j c else A r c

/-- `_swapcols A i j`: the same view aliasing as `_swaprows`, on columns:
column `i` is overwritten with column `j` and column `j` is unchanged. -/
def swapcols {m n : ℕ} (A : Matrix (Fin m) (Fin n) ℚ) (i j : Fin n) :
    Matrix (Fin m) (Fin n) ℚ :=
  Matrix.of fun r c => if c = i then A r j else A r c

/-- The running state of the elimination loop of `lu`: the working copy
`U`, the partially built `L`, the two permutation accumulators and the
swap counter `s`. -/
structure LuSt (m : ℕ) where
  L : Matrix (Fin m) (Fin m) ℚ
  U : Matrix (Fin m) (Fin m) ℚ
  P1 : Matrix (Fin m) (Fin m) ℚ
  P2 : Matrix (Fin m) (Fin m) ℚ
  s : ℕ

/-- The result quintuple `(L, U, P1, P2, s)` returned by `lu`. -/
structure LuOut (m : ℕ) where
  L : Matrix (Fin m) (Fin m) ℚ
  U : Matrix (Fin m) (Fin m) ℚ
  P1 : Matrix (Fin m) (Fin m) ℚ
  P2 : Matrix (Fin m) (Fin m) ℚ
  s : ℕ
deriving DecidableEq

/-- The absolute values `abs(U[i:m, i:i+1])` of the trailing part of
column `i`, in row order, as scanned by the partial-pivoting `argmax`. -/
def colTail {m : ℕ} (U : Matrix (Fin m) (Fin m) ℚ) (i : Fin m) : List ℚ :=
  ((List.finRange m).filter (fun r => i ≤ r)).map (fun r => |U r i|)

/-- The absolute values `abs(U[i:m, i:m])` of the trailing submatrix in
row-major order, as scanned by the full-pivoting `argmax`. -/
def blockTail {m : ℕ} (U : Matrix (Fin m) (Fin m) ℚ) (i : Fin m) : List ℚ :=
  ((List.finRange m).filter (fun r => i ≤ r)).flatMap
    (fun r => ((List.finRange m).filter (fun c => i ≤ c)).map (fun c => |U r c|))

/-- One row interchange applied to `U`, `P1` and `L` at pivot step `i`,
with the swap counter incremented exactly when the selected offset `idx`
is nonzero, as in the partial- and full-pivoting branches of `lu`.  The
offset returned by `argmax` always satisfies `i + idx < m`; the
out-of-range fallback leaves the state unchanged and is never taken. -/
def rowSwapPhase {m : ℕ} (i : Fin m) (idx : ℕ) (st : LuSt m) : LuSt m :=
  if h : i.val + idx < m then
    let j : Fin m := ⟨i.val + idx, h⟩
    { L := swaprows st.L i j, U := swaprows st.U i j,
      P1 := swaprows st.P1 i j, P2 := st.P2,
      s := st.s + (if idx = 0 then 0 else 1) }
  else st

/-- One column interchange applied to `U`, `P1` and `L` at pivot step `i`,
with the swap counter incremented exactly when the selected offset is
nonzero, as in the full-pivoting branch of `lu`. -/
def colSwapPhase {m : ℕ} (i : Fin m) (idx : ℕ) (st : LuSt m) : LuSt m :=
  if h : i.val + idx < m then
    let j : Fin m := ⟨i.val + idx, h⟩
    { L := swapcols st.L i j, U := swapcols st.U i j,
      P1 := swapcols st.P1 i j, P2 := st.P2,
      s := st.s + (if idx = 0 then 0 else 1) }
  else st

/-- The pivoting phase of one step of `lu`: nothing for `none`; a row
interchange chosen by `argmax` over the trailing part of column `i` for
`partial`; a row followed by a column interchange chosen by `argmax`
over the trailing submatrix (row-major, `unravel_index`) for `full`. -/
def pivotPhase {m : ℕ} (piv : Pivot) (i : Fin m) (st : LuSt m) : LuSt m :=
  match piv with
  | .none => st
  | .part => rowSwapPhase i (argmaxQ (colTail st.U i)) st
  | .full =>
      let q := argmaxQ (blockTail st.U i)
      let st1 := rowSwapPhase i (q / (m - i.val)) st
      colSwapPhase i (q % (m - i.val)) st1

/-- The intended elimination phase of step `i` of `lu`: with multipliers
`l k = -U k i / U i i` for `k > i`, add `l k * U i c` to `U k c` on the
trailing block (`U[i+1:m, i:m] += l*U[i, i:m]`), store `-l` into column
`i` of `L` (`L[:, i] = -l`) and set `L i i = 1`.  In the source this
code is never completed: every executed iteration has `m ≥ 2`, and the
assignments raise a broadcast `ValueError` first (see `luStep`), so this
definition is reachable only vacuously. -/
def elimPhase {m : ℕ} (i : Fin m) (st : LuSt m) : LuSt m :=
  let l : Fin m → ℚ := fun k => if i < k then -(st.U k i) / st.U i i else 0
  { L := Matrix.of fun r c =>
      if c = i then (if r = i then 1 else -(l r)) else st.L r c,
    U := Matrix.of fun r c =>
      if i < r ∧ i ≤ c then st.U r c + l r * st.U i c else st.U r c,
    P1 := st.P1, P2 := st.P2, s := st.s }

/-- One full step of the elimination loop of `lu`, in source order:
pivot; check the pivot entry `U i i` for zero (raising
`"Invalid pivot value"`); then execute the elimination body.  The body
itself fails with numpy broadcast `ValueError`s:
`l[i+1:m] = -U[i+1:m, i]/U[i, i]` assigns a shape `(m-i-1,)` array into
the `(m-i-1, 1)` slice, which raises whenever `m - i - 1 ≥ 2`, and
`L[:, i] = -l` assigns the `(m, 1)` array `-l` into the shape `(m,)`
column, which raises whenever `m ≥ 2`.  Since every executed iteration
has `i < m - 1` and hence `m ≥ 2`, a step that passes the pivot check
always raises one of the two; the final `.ok` branch is kept as the
transcription of the unreached remainder of the body. -/
def luStep {m : ℕ} (piv : Pivot) (i : Fin m) (st : LuSt m) :
    Except PyErr (LuSt m) :=
  let st1 := pivotPhase piv i st
  if st1.U i i = 0 then .error .invalidPivot
  else if 2 ≤ m - i.val - 1 then .error .broadcast
  else if 2 ≤ m then .error .broadcast
  else .ok (elimPhase i st1)

/-- The first `k` iterations of the loop `for i in range(m-1)` of `lu`,
starting from `U = A`, `L = 0`, `P1 = P2 = I`, `s = 0`. -/
def luAux {m : ℕ} (A : Matrix (Fin m) (Fin m) ℚ) (piv : Pivot) :
    ℕ → Except PyErr (LuSt m)
  | 0 => .ok { L := 0, U := A, P1 := 1, P2 := 1, s := 0 }
  | k + 1 =>
      (luAux A piv k).bind fun st =>
        if h : k < m - 1 then luStep piv ⟨k, by omega⟩ st else .ok st

/-- The LU engine `lu(A, pivoting)` of `lu_methods.py` on a square matrix:
runs the `m - 1` elimination steps and returns `(L, U, P1, P2, s)`. -/
def lu {m : ℕ} (A : Matrix (Fin m) (Fin m) ℚ) (piv : Pivot) :
    Except PyErr (LuOut m) :=
  (luAux A piv (m - 1)).map fun st => ⟨st.L, st.U, st.P1, st.P2, st.s⟩

/-- `ludet(A)`: the determinant via LU with partial pivoting, computed as
`prod(diag(U)) * (-1)**s`. -/
def ludet {m : ℕ} (A : Matrix (Fin m) (Fin m) ℚ) : Except PyErr ℚ :=
  (lu A .part).map fun o => (∏ i, o.U i i) * (-1) ^ o.s

/-- `luposdef(A)`: runs `lu` with no pivoting inside a `try`; on success
returns whether every diagonal entry of `U` is strictly positive; on a
`ValueError` whose message is not `"Invalid pivot value"` returns
`False`, otherwise re-raises.  The square-shape precondition of the
source is enforced by typing. -/
def luposdef {m : ℕ} (A : Matrix (Fin m) (Fin m) ℚ) : Except PyErr Bool :=
  match lu A .none with
  | .ok o => .ok (decide (∀ i, 0 < o.U i i))
  | .error e => if e = .invalidPivot then .error e else .ok false

/-- The first `c` iterations of the forward-substitution loop of
`_ltrisolve`: starting from `x = zeros`, set
`x[col] = (b[col] - sum(multiply(x, A[col:col+1, :].T))) / A[col, col]`
for `col = 0, 1, ...`; the subtracted sum ranges over every index `j`
(the source multiplies the whole row of `A` with the whole of `x`). -/
def ltriAux {n : ℕ} (T : Matrix (Fin n) (Fin n) ℚ) (b : Fin n → ℚ) :
    ℕ → (Fin n → ℚ)
  | 0 => fun _ => 0
  | c + 1 =>
      let x := ltriAux T b c
      if h : c < n then
        let i : Fin n := ⟨c, h⟩
        Function.update x i ((b i - ∑ j, x j * T i j) / T i i)
      else x

/-- `_ltrisolve(A, b)`: forward substitution over all `n` columns. -/
def ltrisolve {n : ℕ} (T : Matrix (Fin n) (Fin n) ℚ) (b : Fin n → ℚ) :
    Fin n → ℚ :=
  ltriAux T b n

/-- The first `k` iterations of the back-substitution loop of
`_utrisolve`, which visits the columns in the order
`n-1, n-2, ..., 0` (`range(n-1, -1, -1)`); iteration `k` handles column
`n-1-k`, with the same full-row subtracted sum as `_ltrisolve`. -/
def utriAux {n : ℕ} (T : Matrix (Fin n) (Fin n) ℚ) (b : Fin n → ℚ) :
    ℕ → (Fin n → ℚ)
  | 0 => fun _ => 0
  | k + 1 =>
      let x := utriAux T b k
      if h : k < n then
        let i : Fin n := ⟨n - 1 - k, by omega⟩
        Function.update x i ((b i - ∑ j, x j * T i j) / T i i)
      else x

/-- `_utrisolve(A, b)`: back substitution over all `n` columns. -/
def utrisolve {n : ℕ} (T : Matrix (Fin n) (Fin n) ℚ) (b : Fin n → ℚ) :
    Fin n → ℚ :=
  utriAux T b n

/-- `trisolve(A, b, upper)` of `trisolve_methods.py`: checks that the row
count of `T` matches the length of `b` (raising
`"Invalid matrix dimensions"`), then dispatches on `upper` to back or
forward substitution.  The right-hand side is passed with its own length
`k` so that the dimension check of the source is preserved. -/
def trisolve {n : ℕ} (T : Matrix (Fin n) (Fin n) ℚ) (k : ℕ) (b : Fin k → ℚ)
    (upper : Bool) : Except PyErr (Fin n → ℚ) :=
  if h : n = k then
    let b2 : Fin n → ℚ := fun i => b (Fin.cast h i)
    .ok (if upper then utrisolve T b2 else ltrisolve T b2)
  else .error .invalidDims

/-! ### The QR engine and its utilities, over `ℝ`

The routines of `norm_methods.py`, `householder_methods.py` and
`qr_methods.py` involve square roots, so they are embedded over the real
numbers.  The QR engine is embedded on square matrices; this already
covers the behaviour the claims are about, and the trailing-block update
of the source (see `qrStep`) is only shape-consistent in that case. -/

/-- The vector `p`-norm `(sum(abs(v)**p))**(1/p)` of `norm_methods.py`
for a finite integer exponent `p` (the claims only exercise the default
`p = 2`; the `p = np.inf` branch of the source is not representable by a
natural exponent and is not modelled).  The outer exponent `1/p` is real
division, as in Python. -/
noncomputable def norm {k : ℕ} (v : Fin k → ℝ) (p : ℕ := 2) : ℝ :=
  (∑ i, |v i| ^ p) ^ ((1 : ℝ) / (p : ℝ))

/-- The slice `x[c:]` of a vector, as used by the QR engine. -/
def tail {m : ℕ} (x : Fin m → ℝ) (c : Fin m) : Fin (m - c.val) → ℝ :=
  fun d => x ⟨c.val + d.val, by omega⟩

/-- The `w_only=True` branch of `householder(x, y)`: the difference
`w = x - y` scaled by `1 / norm(w)`. -/
noncomputable def householderW {k : ℕ} (x y : Fin k → ℝ) : Fin k → ℝ :=
  fun i => (x i - y i) / norm (fun j => x j - y j)

/-- The `w_only=False` branch of `householder(x, y)`:
`eye(m) - 2*matmul(w, w.T)` with `w = x - y`; note that the source does
not normalise `w` on this branch. -/
noncomputable def householderMat {k : ℕ} (x y : Fin k → ℝ) :
    Matrix (Fin k) (Fin k) ℝ :=
  1 - (2 : ℝ) • Matrix.vecMulVec (fun i => x i - y i) (fun i => x i - y i)

/-- The running state of the reflection loop of `qr`: the orthogonal
accumulator `Q` and the working matrix `R`. -/
structure QrSt (m : ℕ) where
  Q : Matrix (Fin m) (Fin m) ℝ
  R : Matrix (Fin m) (Fin m) ℝ

open Classical in
/-- One iteration of the loop of `qr` at column `col`:

* `x` is column `col` of the working `R`; if every entry strictly below
  row `col` is zero the column is skipped.
* The target `y` is zero except `y[0:col-1] = x[0:col-1]` (the source
  copies the prefix only up to index `col - 2`) and
  `y[col] = signs[col] * norm(x[col:])`.
* `w = householder(x, y, w_only=True)`.
* `Q[:, col:] -= 2*(Q[:, col:] @ w[col:]) @ w[col:].T`.
* The source computes `proj_R = 2*w[col:] @ (w[col:].T @ R[col:, col])`
  from the single column `col` of `R`, a one-dimensional array of length
  `m - col`, and subtracts it from the whole trailing block
  `R[col:, col:]`; numpy broadcasts it across the rows of that block
  (this is shape-consistent only when the block is square, which is why
  the embedding is on square matrices), so entry `(r, c2)` of the block
  loses `2 * w c2 * (w[col:].T @ R[col:, col])`. -/
noncomputable def qrStep {m : ℕ} (signs : Fin m → ℝ) (col : Fin m)
    (st : QrSt m) : QrSt m :=
  let x : Fin m → ℝ := fun r => st.R r col
  if ∀ r : Fin m, col < r → x r = 0 then st
  else
    let y : Fin m → ℝ := fun r =>
      if r = col then signs col * norm (tail x col)
      else if r.val < col.val - 1 then x r else 0
    let w := householderW x y
    { Q := Matrix.of fun r c2 =>
        if col ≤ c2 then
          st.Q r c2 - 2 * (∑ t, if col ≤ t then st.Q r t * w t else 0) * w c2
        else st.Q r c2,
      R := Matrix.of fun r c2 =>
        if col ≤ r ∧ col ≤ c2 then
          st.R r c2 - 2 * w c2 * (∑ t, if col ≤ t then w t * st.R t col else 0)
        else st.R r c2 }

/-- The first `k` iterations of the loop of `qr`, starting from `Q = I`
and `R = A` (the source binds `R` to `A` without copying; value-wise the
loop starts from `A`). -/
noncomputable def qrAux {m : ℕ} (A : Matrix (Fin m) (Fin m) ℝ)
    (signs : Fin m → ℝ) : ℕ → QrSt m
  | 0 => ⟨1, A⟩
  | k + 1 =>
      let st := qrAux A signs k
      if h : k < m then qrStep signs ⟨k, h⟩ st else st

/-- The QR engine `qr(A, signs)` of `qr_methods.py` on a square matrix
(`m = n`, so the `m < n` guard cannot fire; the shape guard on `signs`
is enforced by typing).  The default sign vector is all ones. -/
noncomputable def qr {m : ℕ} (A : Matrix (Fin m) (Fin m) ℝ)
    (signs : Fin m → ℝ := fun _ => 1) : QrSt m :=
  qrAux A signs m

/-! ### Auxiliary lemmas -/

@[simp] theorem ok_bind {α β : Type} (a : α) (f : α → Except PyErr β) :
    (Except.ok a : Except PyErr α).bind f = f a := rfl

@[simp] theorem error_bind {α β : Type} (e : PyErr) (f : α → Except PyErr β) :
    (Except.error e : Except PyErr α).bind f = Except.error e := rfl

/-- Entries of the substitution vector at indices not yet visited by the
forward loop are still zero. -/
theorem ltriAux_eq_zero {n : ℕ} (T : Matrix (Fin n) (Fin n) ℚ) (b : Fin n → ℚ) :
    ∀ (c : ℕ) (j : Fin n), c ≤ j.val → ltriAux T b c j = 0 := by
  intro c
  induction c with
  | zero => intro j _; rfl
  | succ c ih =>
    intro j hj
    rw [ltriAux]
    by_cases h : c < n
    · rw [dif_pos h, Function.update_apply, if_neg, ih j (by omega)]
      intro he
      have : j.val = c := by rw [he]
      omega
    · rw [dif_neg h]; exact ih j (by omega)

/-- The forward-substitution loop only reads the lower triangle of its
matrix (entries multiplying a not-yet-assigned solution component are
multiplied by zero). -/
theorem ltriAux_congr {n : ℕ} {T₁ T₂ : Matrix (Fin n) (Fin n) ℚ}
    (b : Fin n → ℚ) (hT : ∀ i j : Fin n, j ≤ i → T₁ i j = T₂ i j) :
    ∀ c, ltriAux T₁ b c = ltriAux T₂ b c := by
  intro c
  induction c with
  | zero => rfl
  | succ c ih =>
    rw [ltriAux, ltriAux, ih]
    by_cases h : c < n
    · rw [dif_pos h, dif_pos h]
      have hsum : ∑ j, ltriAux T₂ b c j * T₁ ⟨c, h⟩ j =
          ∑ j, ltriAux T₂ b c j * T₂ ⟨c, h⟩ j := by
        refine Finset.sum_congr rfl fun j _ => ?_
        rcases le_or_lt j.val c with hc | hc
        · rcases lt_or_eq_of_le hc with hc | hc
          · rw [hT ⟨c, h⟩ j (by exact Fin.le_def.mpr (by simpa using le_of_lt hc))]
          · rw [hT ⟨c, h⟩ j (by exact Fin.le_def.mpr (by simp [hc]))]
        · rw [ltriAux_eq_zero T₂ b c j (le_of_lt hc), zero_mul, zero_mul]
      simp only [hsum, hT ⟨c, h⟩ ⟨c, h⟩ (le_refl _)]
    · rw [dif_neg h, dif_neg h]

/-- Entries of the substitution vector at indices not yet visited by the
backward loop are still zero. -/
theorem utriAux_eq_zero {n : ℕ} (T : Matrix (Fin n) (Fin n) ℚ) (b : Fin n → ℚ) :
    ∀ (k : ℕ) (j : Fin n), j.val < n - k → utriAux T b k j = 0 := by
  intro k
  induction k with
  | zero => intro j _; rfl
  | succ k ih =>
    intro j hj
    rw [utriAux]
    by_cases h : k < n
    · rw [dif_pos h, Function.update_apply, if_neg, ih j (by omega)]
      intro he
      have : j.val = n - 1 - k := by rw [he]
      omega
    · rw [dif_neg h]; exact ih j (by omega)

/-- The back-substitution loop only reads the upper triangle of its
matrix. -/
theorem utriAux_congr {n : ℕ} {T₁ T₂ : Matrix (Fin n) (Fin n) ℚ}
    (b : Fin n → ℚ) (hT : ∀ i j : Fin n, i ≤ j → T₁ i j = T₂ i j) :
    ∀ k, utriAux T₁ b k = utriAux T₂ b k := by
  intro k
  induction k with
  | zero => rfl
  | succ k ih =>
    rw [utriAux, utriAux, ih]
    by_cases h : k < n
    · rw [dif_pos h, dif_pos h]
      have hsum : ∑ j, utriAux T₂ b k j * T₁ ⟨n - 1 - k, by omega⟩ j =
          ∑ j, utriAux T₂ b k j * T₂ ⟨n - 1 - k, by omega⟩ j := by
        refine Finset.sum_congr rfl fun j _ => ?_
        rcases le_or_lt (n - 1 - k) j.val with hc | hc
        · rw [hT ⟨n - 1 - k, by omega⟩ j (Fin.le_def.mpr (by simpa using hc))]
        · rw [utriAux_eq_zero T₂ b k j (by omega), zero_mul, zero_mul]
      simp only [hsum, hT ⟨n - 1 - k, by omega⟩ ⟨n - 1 - k, by omega⟩ (le_refl _)]
    · rw [dif_neg h, dif_neg h]


/-! ### Claim theorems -/

/-- C1: evaluation of `lu` at the failing inputs.  On the 1 by 1 matrix
`[[5]]` (beyond the empty 0 by 0 case, the only square shape on which
`lu` can return at all), the call succeeds but returns `L = [[0]]`: the
loop body never ran, so `L` keeps its `zeros` initialisation, is not
unit lower triangular, and `L * U = [[0]]` differs from
`P1 * A * P2 = [[5]]`.  On every larger input — here the 2 by 2
identity — the elimination body raises a numpy broadcast `ValueError`
at `L[:, i] = -l` during iteration 0 and `lu` never returns.  Both
behaviours contradict the claimed contract and the docstring of `lu`. -/
theorem C1_lu_L_not_unit :
    lu !![(5:ℚ)] .part = .ok ⟨!![0], !![5], !![1], !![1], 0⟩ ∧
    (!![(0:ℚ)] : Matrix (Fin 1) (Fin 1) ℚ) 0 0 ≠ 1 ∧
    !![(0:ℚ)] * !![(5:ℚ)] ≠ !![(1:ℚ)] * !![(5:ℚ)] * !![(1:ℚ)] ∧
    lu !![(1:ℚ),0;0,1] .part = .error .broadcast := by
  refine ⟨?_, by norm_num, ?_, ?_⟩
  · show (luAux _ _ 0).map _ = _
    rw [luAux]
    norm_num [Except.map]
    constructor <;>
      (ext r c; fin_cases r; fin_cases c;
       norm_num [Matrix.one_apply, Matrix.zero_apply])
  · intro h
    have h00 := congrFun (congrFun h 0) 0
    simp [Matrix.mul_apply, Fin.sum_univ_one] at h00
  · show (luAux _ _ 1).map _ = _
    rw [luAux, luAux]
    norm_num [luStep, pivotPhase, rowSwapPhase, argmaxQ, listMax, colTail,
      swaprows, List.finRange, List.filter, Except.map]

/-- C3: on `A = [[0,1],[1,0]]` with partial pivoting, step 0 does select
the nontrivial offset 1 and increments `s` to 1, but `_swaprows`
duplicates instead of exchanging: after the pivoting phase
`U = [[1,0],[1,0]]` and `P1 = [[0,1],[0,1]]` (not even a permutation),
and the call then raises the broadcast `ValueError` at `L[:, 0] = -l`
and returns nothing — not the claimed
`(I2, I2, [[0,1],[1,0]], I2, 1)`. -/
theorem C3_lu_swap_scenario :
    lu !![(0:ℚ),1;1,0] .part = .error .broadcast ∧
    pivotPhase .part (0 : Fin 2) ⟨0, !![(0:ℚ),1;1,0], 1, 1, 0⟩ =
      ⟨0, !![1,0;1,0], !![0,1;0,1], 1, 1⟩ := by
  constructor
  · show (luAux _ _ 1).map _ = _
    rw [luAux, luAux]
    norm_num [luStep, pivotPhase, rowSwapPhase, argmaxQ, listMax, colTail,
      swaprows, List.finRange, List.filter, Except.map]
  · have hidx : argmaxQ (colTail !![(0:ℚ),1;1,0] (0 : Fin 2)) = 1 := by
      norm_num [argmaxQ, listMax, colTail, List.finRange, List.filter]
    norm_num [pivotPhase, rowSwapPhase, hidx, swaprows]
    refine ⟨?_, ?_, ?_⟩
    · ext r c
      norm_num
    · ext r c
      fin_cases r <;> fin_cases c <;> norm_num
    · ext r c
      fin_cases r <;> fin_cases c <;>
        norm_num [Matrix.one_apply, Fin.ext_iff, colTail, argmaxQ, listMax,
          List.finRange, List.filter]

/-- C4: characterisation of `luposdef`.  For every square `A`, the result
is `true` iff the no-pivoting elimination completes and every diagonal
entry of `U` is strictly positive; an `"Invalid pivot value"` error
(`SingularMatrixError`) from the elimination propagates to the caller,
while any other error is swallowed into the result `false`. -/
theorem C4_luposdef_characterisation {m : ℕ} (A : Matrix (Fin m) (Fin m) ℚ) :
    (luposdef A = .ok true ↔
      ∃ o : LuOut m, lu A .none = .ok o ∧ ∀ i, 0 < o.U i i) ∧
    (∀ e, lu A .none = .error e →
      (e = .invalidPivot → luposdef A = .error .invalidPivot) ∧
      (e ≠ .invalidPivot → luposdef A = .ok false)) := by
  constructor
  · cases hlu : lu A .none with
    | ok o =>
      simp only [luposdef, hlu]
      constructor
      · intro h
        refine ⟨o, rfl, ?_⟩
        have := Except.ok.inj h
        exact of_decide_eq_true this
      · rintro ⟨o2, ho2, hpos⟩
        have heq : o2 = o := (Except.ok.inj ho2).symm
        subst heq
        exact congrArg Except.ok (by simpa using hpos)
    | error e =>
      simp only [luposdef, hlu]
      by_cases he : e = .invalidPivot
      · rw [if_pos he]
        constructor
        · intro h; cases h
        · rintro ⟨o2, ho2, _⟩; cases ho2
      · rw [if_neg he]
        constructor
        · intro h; simp at h
        · rintro ⟨o2, ho2, _⟩; cases ho2
  · intro e he
    simp only [luposdef, he]
    constructor
    · intro h1; rw [if_pos h1, h1]
    · intro h1; rw [if_neg h1]

/-- C4 witness: all three behaviours of the characterisation are
exercised.  On the 1 by 1 matrix `[[2]]` the elimination loop is empty,
`lu` succeeds with `U = [[2]]` and `luposdef` returns `true`; on
`[[0,1],[1,0]]` the first (unpivoted) pivot is zero, so the
`SingularMatrixError` propagates; on the 2 by 2 identity `lu` dies with
the broadcast `ValueError`, which is swallowed into `false`. -/
theorem C4_luposdef_witness :
    luposdef !![(2:ℚ)] = .ok true ∧
    luposdef !![(0:ℚ),1;1,0] = .error .invalidPivot ∧
    luposdef !![(1:ℚ),0;0,1] = .ok false := by
  have hok : lu !![(2:ℚ)] .none = .ok ⟨0, !![(2:ℚ)], 1, 1, 0⟩ := rfl
  have herr : lu !![(0:ℚ),1;1,0] .none = .error .invalidPivot := by
    show (luAux _ _ 1).map _ = _
    rw [luAux, luAux]
    norm_num [luStep, pivotPhase, Except.map]
  have hbr : lu !![(1:ℚ),0;0,1] .none = .error .broadcast := by
    show (luAux _ _ 1).map _ = _
    rw [luAux, luAux]
    norm_num [luStep, pivotPhase, Except.map]
  refine ⟨?_, ?_, ?_⟩
  · refine (C4_luposdef_characterisation !![(2:ℚ)]).1.mpr ⟨_, hok, ?_⟩
    intro i
    fin_cases i
    norm_num
  · exact ((C4_luposdef_characterisation !![(0:ℚ),1;1,0]).2 .invalidPivot herr).1 rfl
  · exact ((C4_luposdef_characterisation !![(1:ℚ),0;0,1]).2 .broadcast hbr).2 (by decide)

/-- C5: the code cannot compute a determinant for any `m ≥ 2`: `lu` with
partial pivoting raises the numpy broadcast `ValueError` during its
first iteration (after the corrupted row "swap"), and `ludet`
propagates it.  At `[[1,2],[3,4]]` the claimed value
`prod(diag(U)) * (-1)^s`, equal to the true determinant `-2`, is never
produced — contradicting the claim and the docstring of `ludet`. -/
theorem C5_ludet_never_returns :
    ludet !![(1:ℚ),2;3,4] = .error .broadcast ∧
    Matrix.det !![(1:ℚ),2;3,4] = -2 := by
  constructor
  · show ((luAux _ _ 1).map _).map _ = _
    rw [luAux, luAux]
    norm_num [luStep, pivotPhase, rowSwapPhase, argmaxQ, listMax, colTail,
      swaprows, List.finRange, List.filter, Except.map]
  · norm_num [Matrix.det_fin_two]

/-- C6 counterexample: on `A = [[2,0],[0,0]]` with no pivoting, `lu` does
not raise the claimed `SingularMatrixError` (`"Invalid pivot value"`):
the zero entry at position `(1,1)` is never pivot-checked. -/
theorem C6_lu_no_singular_error :
    lu !![(2:ℚ),0;0,0] .none ≠ .error .invalidPivot := by
  have hval : lu !![(2:ℚ),0;0,0] .none = .error .broadcast := by
    show (luAux _ _ 1).map _ = _
    rw [luAux, luAux]
    norm_num [luStep, pivotPhase, Except.map]
  rw [hval]
  simp

/-- C6 (amended): on `A = [[2,0],[0,0]]` with no pivoting the call does
fail, but with numpy's broadcast `ValueError`, raised at the assignment
`L[:, 0] = -l` during the first (and only) iteration after the nonzero
pivot `2` passes the check; the final diagonal entry is never
pivot-checked and no `SingularMatrixError` occurs. -/
theorem C6_lu_fails_with_broadcast :
    lu !![(2:ℚ),0;0,0] .none = .error .broadcast := by
  show (luAux _ _ 1).map _ = _
  rw [luAux, luAux]
  norm_num [luStep, pivotPhase, Except.map]

/-- C7 counterexample: `trisolve` on the 1 by 1 matrix `[[0]]` (zero
diagonal entry, dimension check passes) does not fail with the claimed
`SingularMatrixError` (`"Invalid pivot value"`); the source has no
singularity check at all. -/
theorem C7_zero_diagonal_no_error :
    (!![(0:ℚ)] : Matrix (Fin 1) (Fin 1) ℚ) 0 0 = 0 ∧
    trisolve !![(0:ℚ)] 1 ![1] true ≠ .error .invalidPivot := by
  refine ⟨rfl, ?_⟩
  rw [trisolve, dif_pos rfl]
  intro h
  cases h

/-- C7 (amended): whenever the dimension check passes, `trisolve` returns
a solution vector and never raises, regardless of zero diagonal entries
(in floating point those produce non-finite components; in this exact
embedding division by zero is the Lean convention `x / 0 = 0`). -/
theorem C7_trisolve_never_singular_error {n : ℕ} (T : Matrix (Fin n) (Fin n) ℚ)
    (b : Fin n → ℚ) (u : Bool) : ∃ x, trisolve T n b u = .ok x := by
  rw [trisolve, dif_pos rfl]
  exact ⟨_, rfl⟩

/-- C9: the result of `trisolve` depends only on the entries of the
triangle it is told to solve (including the diagonal): two matrices that
agree on that triangle produce identical results for every right-hand
side, in both modes. -/
theorem C9_trisolve_noninterference {n : ℕ} (T₁ T₂ : Matrix (Fin n) (Fin n) ℚ)
    (k : ℕ) (b : Fin k → ℚ) (u : Bool)
    (hT : ∀ i j : Fin n, (if u = true then i ≤ j else j ≤ i) → T₁ i j = T₂ i j) :
    trisolve T₁ k b u = trisolve T₂ k b u := by
  unfold trisolve
  by_cases h : n = k
  · rw [dif_pos h, dif_pos h]
    cases u
    · simp only [Bool.false_eq_true, if_false]
      exact congrArg _ (ltriAux_congr _ (fun i j hij => hT i j (by simpa using hij)) n)
    · simp only [if_true]
      exact congrArg _ (utriAux_congr _ (fun i j hij => hT i j (by simpa using hij)) n)
  · rw [dif_neg h, dif_neg h]

/-- C9 witness: two matrices agreeing on the lower triangle but differing
above the diagonal give the same forward-substitution result. -/
theorem C9_trisolve_noninterference_witness :
    trisolve !![(1:ℚ),7;5,2] 2 ![3,4] false =
      trisolve !![(1:ℚ),0;5,2] 2 ![3,4] false := by
  apply C9_trisolve_noninterference
  intro i j hij
  fin_cases i <;> fin_cases j <;> simp_all

/-! ### Norm evaluation helpers and the Householder claims -/

/-- Square root of a perfect square, in `rpow` form. -/
theorem rpow_sq_half {a : ℝ} (h : 0 ≤ a) :
    ((a ^ (2:ℕ) : ℝ)) ^ ((1:ℝ)/2) = a := by
  rw [← Real.rpow_natCast a 2, ← Real.rpow_mul h]
  norm_num

theorem norm_two_eval {v : Fin 2 → ℝ} {a : ℝ} (ha : 0 ≤ a)
    (hsum : |v 0| ^ (2:ℕ) + |v 1| ^ (2:ℕ) = a ^ (2:ℕ)) :
    norm v 2 = a := by
  rw [norm]
  rw [Fin.sum_univ_two, hsum]
  norm_num
  exact rpow_sq_half ha

theorem norm_three_eval {v : Fin 3 → ℝ} {a : ℝ} (ha : 0 ≤ a)
    (hsum : |v 0| ^ (2:ℕ) + |v 1| ^ (2:ℕ) + |v 2| ^ (2:ℕ) = a ^ (2:ℕ)) :
    norm v 2 = a := by
  rw [norm, Fin.sum_univ_three, hsum]
  norm_num
  exact rpow_sq_half ha

/-- C8 (amended): for vectors of equal Euclidean norm with `x ≠ y`, the
`w_only` branch of `householder` returns `(x - y) / norm(x - y)`, which
is a unit vector; the matrix branch returns `I - 2*w*w.T` built from the
UNnormalised difference `w = x - y` (not from the unit vector, as the
claim states). -/
theorem C8_householder_modes {k : ℕ} (x y : Fin k → ℝ)
    (hnorm : norm x 2 = norm y 2) (hxy : x ≠ y) :
    householderW x y = (fun i => (x i - y i) / norm (fun j => x j - y j) 2) ∧
    norm (householderW x y) 2 = 1 ∧
    householderMat x y =
      1 - (2:ℝ) • Matrix.vecMulVec (fun i => x i - y i) (fun i => x i - y i) := by
  refine ⟨rfl, ?_, rfl⟩
  set v : Fin k → ℝ := fun i => x i - y i with hv
  have hex : ∃ i, v i ≠ 0 := by
    by_contra hc
    push_neg at hc
    exact hxy (funext fun i => by have := hc i; rw [hv] at this; simp at this; linarith)
  obtain ⟨i0, hi0⟩ := hex
  have hS : 0 < ∑ i, |v i| ^ (2:ℕ) := by
    apply Finset.sum_pos' (fun i _ => by positivity)
    exact ⟨i0, Finset.mem_univ i0, by positivity⟩
  set S : ℝ := ∑ i, |v i| ^ (2:ℕ) with hSdef
  have hN : 0 < norm v 2 := by
    rw [norm]
    exact Real.rpow_pos_of_pos hS _
  have hNsq : (norm v 2) ^ (2:ℕ) = S := by
    rw [norm, ← Real.rpow_natCast (S ^ ((1:ℝ)/((2:ℕ):ℝ))) 2, ← Real.rpow_mul (le_of_lt hS)]
    norm_num
  have hterm : ∀ i, |v i / norm v 2| ^ (2:ℕ) = |v i| ^ (2:ℕ) / S := by
    intro i
    rw [abs_div, abs_of_pos hN, div_pow, hNsq]
  have hsum : ∑ i, |householderW x y i| ^ (2:ℕ) = 1 := by
    have : ∀ i, |householderW x y i| ^ (2:ℕ) = |v i| ^ (2:ℕ) / S := fun i => hterm i
    rw [Finset.sum_congr rfl (fun i _ => this i), ← Finset.sum_div]
    exact div_self (ne_of_gt hS)
  rw [norm, hsum, Real.one_rpow]

/-- C8 counterexample: `x = [4,3]` and `y = [-4,3]` have equal norm `5`
and differ, yet the matrix branch of `householder` is not
`I - 2*w*w.T` for the unit vector `w` (entry `(0,0)` is `-127`, not
`-1`: the source squares the unnormalised difference `[8,0]`). -/
theorem C8_matrix_mode_not_unit_reflection :
    norm ![(4:ℝ),3] 2 = norm ![(-4:ℝ),3] 2 ∧
    (![(4:ℝ),3] : Fin 2 → ℝ) ≠ ![(-4:ℝ),3] ∧
    householderMat ![(4:ℝ),3] ![(-4:ℝ),3] ≠
      1 - (2:ℝ) • Matrix.vecMulVec (householderW ![(4:ℝ),3] ![(-4:ℝ),3])
        (householderW ![(4:ℝ),3] ![(-4:ℝ),3]) := by
  refine ⟨?_, ?_, ?_⟩
  · rw [norm_two_eval (by norm_num : (0:ℝ) ≤ 5) (by norm_num),
      norm_two_eval (by norm_num : (0:ℝ) ≤ 5) (by norm_num)]
  · intro h
    have h0 := congrFun h 0
    norm_num at h0
  · have hw : householderW ![(4:ℝ),3] ![(-4:ℝ),3] = ![1, 0] := by
      funext i
      have hn : norm (fun j => ![(4:ℝ),3] j - ![(-4:ℝ),3] j) 2 = 8 := by
        apply norm_two_eval (by norm_num : (0:ℝ) ≤ 8)
        norm_num
      rw [householderW, hn]
      fin_cases i <;> norm_num
    rw [hw]
    intro h
    have h00 := congrFun (congrFun h 0) 0
    simp [householderMat, Matrix.vecMulVec_apply, Matrix.one_apply,
      Matrix.sub_apply, Matrix.smul_apply] at h00
    norm_num at h00

/-- C8 witness: at `x = [4,3]`, `y = [-4,3]` the hypotheses of the
amended claim hold and the vector-mode output has unit norm. -/
theorem C8_householder_modes_witness :
    norm ![(4:ℝ),3] 2 = norm ![(-4:ℝ),3] 2 ∧
    norm (householderW ![(4:ℝ),3] ![(-4:ℝ),3]) 2 = 1 := by
  have hnorm : norm ![(4:ℝ),3] 2 = norm ![(-4:ℝ),3] 2 := by
    rw [norm_two_eval (by norm_num : (0:ℝ) ≤ 5) (by norm_num),
      norm_two_eval (by norm_num : (0:ℝ) ≤ 5) (by norm_num)]
  refine ⟨hnorm, (C8_householder_modes _ _ hnorm ?_).2.1⟩
  intro h
  have h0 := congrFun h 0
  norm_num at h0

/-! ### Evaluation of the QR engine on the C2 failing input -/

/-- Column 1 of `A = [[1,1,0],[0,0,0],[0,2,0]]` is processed: the target
`y` misses entry `col - 1` and the trailing-block update is built from
the single column `R[col:, col]`, yielding a non-orthogonal reflection
of `Q` and a non-triangular `R`. -/
theorem qrStepEval1 : qrStep (fun _ => (1:ℝ)) (⟨1, by norm_num⟩ : Fin 3)
    ⟨1, !![(1:ℝ),1,0;0,0,0;0,2,0]⟩ =
    ⟨!![1,0,0;0,1/9,8/9;0,8/9,1/9], !![1,1,0;0,16/9,-16/9;0,34/9,-16/9]⟩ := by
  have hx : (fun r : Fin 3 => !![(1:ℝ),1,0;0,0,0;0,2,0] r ⟨1, by norm_num⟩) =
      ![1, 0, 2] := by
    funext r; fin_cases r <;> norm_num
  have hn2 : norm (tail (![(1:ℝ),0,2]) ⟨1, by norm_num⟩) 2 = 2 := by
    apply norm_two_eval (by norm_num : (0:ℝ) ≤ 2)
    norm_num [tail]
  have hy : (fun r : Fin 3 =>
      if r = ⟨1, by norm_num⟩ then
        1 * norm (tail (![(1:ℝ),0,2]) ⟨1, by norm_num⟩)
      else if (r : ℕ) < 1 - 1 then !![(1:ℝ),1,0;0,0,0;0,2,0] r ⟨1, by norm_num⟩
      else 0) = ![0, 2, 0] := by
    funext r
    fin_cases r <;> rw [hn2] <;> norm_num [Fin.ext_iff]
  have hn3 : norm (fun j => (![(1:ℝ),0,2]) j - (![(0:ℝ),2,0]) j) 2 = 3 := by
    apply norm_three_eval (by norm_num : (0:ℝ) ≤ 3)
    norm_num
  have hw : householderW (![(1:ℝ),0,2]) (![(0:ℝ),2,0]) = ![1/3, -2/3, 2/3] := by
    funext i
    rw [householderW, hn3]
    fin_cases i <;> norm_num
  simp only [qrStep]
  rw [if_neg]
  · rw [hx, hy, hw]
    rw [QrSt.mk.injEq]
    constructor
    · ext r c2
      fin_cases r <;> fin_cases c2 <;>
        norm_num [Fin.sum_univ_three, Fin.le_def, Matrix.one_apply, Fin.ext_iff]
    · ext r c2
      fin_cases r <;> fin_cases c2 <;>
        norm_num [Fin.sum_univ_three, Fin.le_def, Fin.ext_iff]
  · intro hall
    have h2 := hall ⟨2, by norm_num⟩ (by rw [Fin.lt_def]; norm_num)
    norm_num at h2

/-- Column 0 is skipped: every entry below row 0 is zero. -/
theorem qrStepEval0 : qrStep (fun _ => (1:ℝ)) (⟨0, by norm_num⟩ : Fin 3)
    ⟨1, !![(1:ℝ),1,0;0,0,0;0,2,0]⟩ = ⟨1, !![(1:ℝ),1,0;0,0,0;0,2,0]⟩ := by
  simp only [qrStep]
  rw [if_pos]
  intro r hr
  have h0 : (0:ℕ) < (r:ℕ) := Fin.lt_def.mp hr
  fin_cases r
  · simp at h0
  · norm_num
  · norm_num

/-- Column 2 is skipped: there are no rows below row 2. -/
theorem qrStepEval2 : qrStep (fun _ => (1:ℝ)) (⟨2, by norm_num⟩ : Fin 3)
    ⟨!![(1:ℝ),0,0;0,1/9,8/9;0,8/9,1/9], !![(1:ℝ),1,0;0,16/9,-16/9;0,34/9,-16/9]⟩ =
    ⟨!![(1:ℝ),0,0;0,1/9,8/9;0,8/9,1/9], !![(1:ℝ),1,0;0,16/9,-16/9;0,34/9,-16/9]⟩ := by
  simp only [qrStep]
  rw [if_pos]
  intro r hr
  have h2 : (2:ℕ) < (r:ℕ) := Fin.lt_def.mp hr
  have h3 := r.isLt
  omega

/-- The full run of `qr` on the C2 failing input. -/
theorem qrEvalC2 : qr !![(1:ℝ),1,0;0,0,0;0,2,0] =
    ⟨!![(1:ℝ),0,0;0,1/9,8/9;0,8/9,1/9], !![(1:ℝ),1,0;0,16/9,-16/9;0,34/9,-16/9]⟩ := by
  show qrAux _ _ 3 = _
  simp only [qrAux]
  rw [dif_pos (by norm_num : (0:ℕ) < 3), dif_pos (by norm_num : (1:ℕ) < 3),
    dif_pos (by norm_num : (2:ℕ) < 3)]
  rw [qrStepEval0, qrStepEval1, qrStepEval2]

/-- C2: evaluation of `qr` at the failing input
`A = [[1,1,0],[0,0,0],[0,2,0]]` (square, default all-ones signs).  The
returned `Q` is not orthogonal (`(Q.T*Q) 1 1 = 65/81`), `R` is not upper
triangular (`R 2 1 = 34/9`), and `Q*R` differs from `A`: the source
builds `y` with the off-by-one slice `y[0:col-1]` (so `w` is wrongly
scaled) and builds `proj_R` from the single column `R[col:, col]`
(missing colon) while subtracting it from the whole trailing block. -/
theorem C2_qr_contract_fails :
    qr !![(1:ℝ),1,0;0,0,0;0,2,0] =
      ⟨!![1,0,0;0,1/9,8/9;0,8/9,1/9], !![1,1,0;0,16/9,-16/9;0,34/9,-16/9]⟩ ∧
    (Matrix.transpose !![(1:ℝ),0,0;0,1/9,8/9;0,8/9,1/9] *
      !![(1:ℝ),0,0;0,1/9,8/9;0,8/9,1/9]) 1 1 ≠ 1 ∧
    (!![(1:ℝ),1,0;0,16/9,-16/9;0,34/9,-16/9] : Matrix (Fin 3) (Fin 3) ℝ) 2 1 ≠ 0 ∧
    !![(1:ℝ),0,0;0,1/9,8/9;0,8/9,1/9] * !![(1:ℝ),1,0;0,16/9,-16/9;0,34/9,-16/9] ≠
      !![(1:ℝ),1,0;0,0,0;0,2,0] := by
  refine ⟨qrEvalC2, ?_, ?_, ?_⟩
  · simp only [Matrix.mul_apply, Matrix.transpose_apply, Fin.sum_univ_three]
    norm_num
  · norm_num
  · intro h
    have h11 := congrFun (congrFun h 1) 1
    simp only [Matrix.mul_apply, Fin.sum_univ_three] at h11
    norm_num at h11

end NM
